import Mathlib

/-!
Verification of the MangaDex download manager (`src/mangadex/downloader.py`):
the filesystem layout model (`_sanitize_filename`, `_get_chapter_dir`), the
structure reconciler (`_auto_update_structure`, `_update_volume_structure`),
the chapter fetcher (`download_chapter`), and the numeric range filter of
`download_chapter_range`.

Chapter directories of one manga are modelled as an ordered list of entries
(`MangaFS`), Python dictionaries as insertion-ordered association lists, and
raised exceptions as `Except.error`.
-/

namespace MangadexDL

/-! ## String primitives

Python string methods, implemented structurally over the character list of a
`String` so that every definition evaluates inside the kernel. -/

/-- Python `str.lower()` (the names involved are ASCII). -/
def lowerStr (s : String) : String := String.mk (s.data.map Char.toLower)

/-- Python `str.strip()` on a character list: drop leading and trailing
whitespace. -/
def trimL (cs : List Char) : List Char :=
  ((cs.dropWhile Char.isWhitespace).reverse.dropWhile Char.isWhitespace).reverse

/-- Python `str.strip()`. -/
def trimStr (s : String) : String := String.mk (trimL s.data)

/-- Python `str.split(".")` on a character list: split at every dot, keeping
empty segments. -/
def splitDot : List Char → List Char → List (List Char)
  | [], acc => [acc.reverse]
  | c :: t, acc => if c = '.' then acc.reverse :: splitDot t [] else splitDot t (c :: acc)

/-! ## Filesystem layout model -/

/-- The characters `'<>:"/\|?*'` that `_sanitize_filename` replaces. -/
def invalidChars : List Char := ['<', '>', ':', '"', '/', '\\', '|', '?', '*']

/-- One pass of Python `str.replace(char, "_")` for a one-character pattern:
every occurrence of `c` becomes `'_'`. -/
def replaceChar (s : List Char) (c : Char) : List Char :=
  s.map (fun x => if x = c then '_' else x)

/-- `_sanitize_filename`: for each invalid character in turn, replace it with
`'_'`; finally `str.strip()` the result. -/
def sanitizeFilename (s : String) : String :=
  trimStr (String.mk (invalidChars.foldl replaceChar s.data))

/-- The test `volume and volume.lower() not in ["none", "null", ""]` used both
by `_get_chapter_dir` and by the API-volume normalisation in
`_update_volume_structure` (`volume` truthy means: not `None` and not `""`). -/
def volumeSpecified : Option String → Bool
  | none => false
  | some v => v != "" && !((["none", "null", ""] : List String).contains (lowerStr v))

/-- `_get_chapter_dir`: the chapter directory as a list of path segments below
`download_dir`. -/
def getChapterDir (downloadDir : List String) (mangaTitle : String)
    (volume : Option String) (chapter : String) : List String :=
  let safeTitle := sanitizeFilename mangaTitle
  match volume with
  | some v =>
      if volumeSpecified (some v) then
        downloadDir ++ [safeTitle, "Vol." ++ v, "Ch." ++ chapter]
      else
        downloadDir ++ [safeTitle, "Ch." ++ chapter]
  | none => downloadDir ++ [safeTitle, "Ch." ++ chapter]

/-! ## Python dictionaries as insertion-ordered association lists -/

/-- Python dict assignment `d[k] = v`: an existing key keeps its position and
receives the new value, a fresh key is appended at the end. -/
def dictInsert : List (String × α) → String → α → List (String × α)
  | [], k, v => [(k, v)]
  | p :: t, k, v => if p.1 = k then (k, v) :: t else p :: dictInsert t k v

/-- Dict lookup `d[k]` / the membership test `k in d`. -/
def lookupD (d : List (String × α)) (k : String) : Option α :=
  (d.find? (fun p => p.1 == k)).map Prod.snd

/-- Fold a sequence of dict assignments over an initial dict. -/
def dictOf (init : List (String × α)) (l : List (String × α)) : List (String × α) :=
  l.foldl (fun d p => dictInsert d p.1 p.2) init

/-- A dict has pairwise-distinct keys. -/
abbrev NodupKeys (d : List (String × α)) : Prop := (d.map Prod.fst).Nodup

/-! ## The reconciler's data model -/

/-- Volume normalisation in `_update_volume_structure`: sentinel volumes
(`None`, `""`, `"none"`, `"null"`, case-insensitive) become `None`. -/
def normalizeVolume (v : Option String) : Option String :=
  match v with
  | some s => if volumeSpecified (some s) then some s else none
  | none => none

/-- Build `api_structure` from the chapter rows `(chapter, volume)` returned by
the catalog: a chapter number occurring twice keeps its first position and the
last row's (normalised) volume. -/
def buildApi (chapters : List (String × Option String)) : List (String × Option String) :=
  chapters.foldl (fun d p => dictInsert d p.1 (normalizeVolume p.2)) []

/-- One chapter directory inside a manga directory: `vol = none` means
`Ch.{num}` sits directly under the manga root, `vol = some v` means it sits
inside `Vol.{v}`; `content` identifies the directory's page payload, which a
move must carry along unchanged. -/
structure ChapDir where
  vol : Option String
  num : String
  content : Nat
deriving DecidableEq, Repr

/-- The manga directory: its chapter directories and its `Vol.*` directories,
both in filesystem iteration order. -/
structure MangaFS where
  chaps : List ChapDir
  vols : List String
deriving DecidableEq, Repr

/-- First scan pass of `_update_volume_structure`: `Ch.*` entries directly in
the manga root, recorded with volume `None`. -/
def rootEntries (fs : MangaFS) : List (String × Option String) :=
  (fs.chaps.filter (fun d => d.vol == none)).map (fun d => (d.num, (none : Option String)))

/-- Second scan pass: for each `Vol.*` directory, its `Ch.*` children recorded
with the volume-directory suffix. -/
def volEntries (fs : MangaFS) : List (String × Option String) :=
  (fs.vols.map (fun v =>
    (fs.chaps.filter (fun d => d.vol == some v)).map (fun d => (d.num, some v)))).flatten

/-- `local_structure`: root pass first, then volume pass, later dict
assignments overwriting earlier ones. -/
def scanLocal (fs : MangaFS) : List (String × Option String) :=
  dictOf (dictOf [] (rootEntries fs)) (volEntries fs)

/-- A StructureChange: chapter number, scanned (source) volume, API (target)
volume.  The recorded source path is `Vol.{fromVol}/Ch.{num}` respectively
`Ch.{num}`, so it is determined by `fromVol` and `num`. -/
structure Change where
  num : String
  fromVol : Option String
  toVol : Option String
deriving DecidableEq, Repr

/-- The diff step: walk `api_structure` in order; for each chapter number also
present in `local_structure`, record a change when the volumes differ. -/
def computeChanges (api loc : List (String × Option String)) : List Change :=
  api.filterMap (fun p =>
    match lookupD loc p.1 with
    | some lv => if lv ≠ p.2 then some ⟨p.1, lv, p.2⟩ else none
    | none => none)

/-! ## Applying StructureChanges -/

/-- Python truthiness of a stored volume value: `None` and `""` are falsy
(`if to_vol:` / `if from_vol:`). -/
def truthyVol : Option String → Option String
  | none => none
  | some s => if s = "" then none else some s

/-- Which filesystem mutations succeed while applying changes; a `false` means
that operation raises an OS error (which the per-change `try` swallows). -/
structure FsEnv where
  mkdirOk : Bool
  moveOk : String → Bool
  rmdirOk : Bool

/-- The environment in which every filesystem mutation succeeds. -/
def allOk : FsEnv := ⟨true, fun _ => true, true⟩

/-- The collision test `new_path.exists()` for one change. -/
def destExists (fs : MangaFS) (c : Change) : Bool :=
  fs.chaps.any (fun d => d.vol == truthyVol c.toVol && d.num == c.num)

/-- `shutil.move(old_path, new_path)`: the source directory entry disappears
and reappears (same content) at the destination path. -/
def movedFS (fs : MangaFS) (c : Change) (content : Nat) : MangaFS :=
  { fs with chaps :=
      (fs.chaps.eraseP (fun x => x.vol == c.fromVol && x.num == c.num))
        ++ [⟨truthyVol c.toVol, c.num, content⟩] }

/-- The post-move cleanup, split on the truthiness of `from_vol`: when the
source volume directory exists and is now empty, remove it (`rmdir`); a raise
here is swallowed by the per-change handler, after the move already
happened. -/
def cleanupVolAux (e : FsEnv) (fs : MangaFS) : Option String → MangaFS
  | some fv =>
      if fv ∈ fs.vols ∧ fs.chaps.all (fun x => x.vol != some fv) then
        if e.rmdirOk then { fs with vols := fs.vols.erase fv } else fs
      else fs
  | none => fs

/-- The post-move cleanup of the change's source volume directory. -/
def cleanupVol (e : FsEnv) (fs : MangaFS) (c : Change) : MangaFS :=
  cleanupVolAux e fs (truthyVol c.fromVol)

/-- `shutil.move` on the looked-up source entry: a missing source raises,
caught by the per-change handler (state unchanged). -/
def moveStep (e : FsEnv) (fs : MangaFS) (c : Change) : Option ChapDir → MangaFS
  | none => fs
  | some d => if e.moveOk c.num then cleanupVol e (movedFS fs c d.content) c else fs

/-- The move-and-cleanup part of the per-change `try` block, entered after the
parent `mkdir`: skip on collision, otherwise move and clean up. -/
def applyMove (e : FsEnv) (fs : MangaFS) (c : Change) : MangaFS :=
  if destExists fs c then fs
  else moveStep e fs c (fs.chaps.find? (fun d => d.vol == c.fromVol && d.num == c.num))

/-- `new_path.parent.mkdir(parents=True, exist_ok=True)`, split on the
truthiness of `to_vol`: create the target volume directory when missing (its
failure is caught by the per-change handler), then the move block. -/
def mkdirStep (e : FsEnv) (fs : MangaFS) (c : Change) : Option String → MangaFS
  | some v =>
      if v ∈ fs.vols then applyMove e fs c
      else if e.mkdirOk then applyMove e { fs with vols := fs.vols ++ [v] } c
      else fs
  | none => applyMove e fs c

/-- Apply one StructureChange: parent mkdir, then the move block; any raise
inside the per-change `try` is caught and the loop continues. -/
def applyChange (e : FsEnv) (fs : MangaFS) (c : Change) : MangaFS :=
  mkdirStep e fs c (truthyVol c.toVol)

/-- The apply loop over the computed change list. -/
def applyChanges (e : FsEnv) (fs : MangaFS) (cs : List Change) : MangaFS :=
  cs.foldl (applyChange e) fs

/-- `_update_volume_structure` on the happy path (catalog reachable, every
filesystem mutation succeeds), as a pure state transformer:  scan, diff
against `remote`, and apply; no changes (or no local chapters) leaves the
directory untouched. -/
def updateVolumeStructure (fs : MangaFS) (remote : List (String × Option String)) : MangaFS :=
  let loc := scanLocal fs
  if loc.isEmpty then fs
  else
    let changes := computeChanges (buildApi remote) loc
    if changes.isEmpty then fs
    else applyChanges allOk fs changes

/-! ## The reconciler with raised exceptions made explicit

Raised exceptions are modelled as `Except.error`; the environment says what
the catalog call returns and which filesystem mutations succeed. -/

/-- Environment of one reconciliation run: outcome of
`client.manga.get_chapters_list` (an `.error` is a raised exception), the
filesystem-mutation outcomes, the outcome of each legacy folder rename, and
whether the two directory scans of the legacy-rename sub-step succeed —
`rootScanOk` for `download_dir.iterdir()` and `childScanOk` for the
`existing_dir.iterdir()` run inside the `has_chapters` test of each
candidate.  Those two scans sit outside every `try/except` in
`_auto_update_structure`, so their raises are modelled as escaping. -/
structure RecEnv where
  catalog : Except String (List (String × Option String))
  fsEnv : FsEnv
  renameOk : String → Bool
  rootScanOk : Bool
  childScanOk : String → Bool

/-- The body of `_update_volume_structure`'s outer `try`: scan, fetch the
catalog (which may raise), diff, apply.  Raises inside the per-change blocks
are already swallowed by `applyChange`, so the only raise escaping to the
outer handler is the catalog call, which precedes every mutation. -/
def updateVolumeStructureBody (env : RecEnv) (fs : MangaFS) : Except String MangaFS :=
  let loc := scanLocal fs
  if loc.isEmpty then .ok fs
  else
    match env.catalog with
    | .error e => .error e
    | .ok raw =>
        let changes := computeChanges (buildApi raw) loc
        if changes.isEmpty then .ok fs
        else .ok (applyChanges env.fsEnv fs changes)

/-- `_update_volume_structure`: its whole body sits in `try/except Exception`,
the handler logs a warning and returns, leaving the directory as it was when
the raise happened (which is before any mutation, see
`updateVolumeStructureBody`). -/
def updateVolumeStructureE (env : RecEnv) (fs : MangaFS) : Except String MangaFS :=
  match updateVolumeStructureBody env fs with
  | .ok fs' => .ok fs'
  | .error _ => .ok fs

/-- The language codes the legacy-rename sub-step recognises. -/
def langCodes : List String :=
  ["ja", "en", "es", "fr", "de", "ko", "zh", "pt", "pt-br"]

/-- `has_chapters`: the directory has a `Ch.*` or `Vol.*` child directory
(the value computed when the child scan succeeds). -/
def hasChapters (fs : MangaFS) : Bool :=
  fs.chaps.any (fun d => d.vol == none) || !fs.vols.isEmpty

/-- The name test of the legacy-rename loop: the lower-cased directory name
has at most three characters or is a known language code. -/
def legacyNameTest (name : String) : Bool :=
  decide ((lowerStr name).length ≤ 3) || langCodes.contains (lowerStr name)

/-- The body of the legacy-rename loop over the `download_dir.iterdir()`
listing (every entry a directory).  For each candidate name, the
`has_chapters` test runs `existing_dir.iterdir()` — that scan sits outside
every `try/except`, so its raise escapes (`.error`).  Only the rename itself
is guarded: a failed rename is logged and the loop goes on; the first
successful rename returns that directory's name and breaks. -/
def legacyFind (env : RecEnv) : List (String × MangaFS) → Except String (Option String)
  | [] => .ok none
  | p :: t =>
      if legacyNameTest p.1 then
        if env.childScanOk p.1 then
          if hasChapters p.2 then
            if env.renameOk p.1 then .ok (some p.1) else legacyFind env t
          else legacyFind env t
        else .error "iterdir"
      else legacyFind env t

/-- The legacy-rename sub-step: `download_dir.iterdir()` itself is also
unguarded and may raise; otherwise run the loop and rename the found
directory to `safeTitle`. -/
def legacyRenameE (env : RecEnv) (root : List (String × MangaFS)) (safeTitle : String) :
    Except String (List (String × MangaFS)) :=
  if env.rootScanOk then
    match legacyFind env root with
    | .error e => .error e
    | .ok none => .ok root
    | .ok (some nm) => .ok (root.map (fun q => if q.1 = nm then (safeTitle, q.2) else q))
  else .error "iterdir"

/-- The second half of `_auto_update_structure`: if the manga directory now
exists, run `_update_volume_structure` on it (which never raises). -/
def updateStage (env : RecEnv) (safeTitle : String) (root1 : List (String × MangaFS)) :
    Option (String × MangaFS) → Except String (List (String × MangaFS))
  | some p =>
      match updateVolumeStructureE env p.2 with
      | .ok fs' => .ok (root1.map (fun q => if q.1 = safeTitle then (safeTitle, fs') else q))
      | .error e => .error e
  | none => .ok root1

/-- `_auto_update_structure` over the downloads root (an ordered listing of
directory name/contents pairs): when the canonical manga directory is absent,
run the legacy-rename sub-step — whose directory scans can raise, and
`_auto_update_structure` has no handler of its own, so such a raise
propagates to `download_manga` — then, if the manga directory exists, run
`_update_volume_structure` on it. -/
def autoUpdateStructureE (env : RecEnv) (root : List (String × MangaFS))
    (safeTitle : String) : Except String (List (String × MangaFS)) :=
  match (if (root.find? (fun p => p.1 == safeTitle)).isSome then .ok root
         else legacyRenameE env root safeTitle :
           Except String (List (String × MangaFS))) with
  | .error e => .error e
  | .ok root1 => updateStage env safeTitle root1 (root1.find? (fun p => p.1 == safeTitle))

/-! ## The chapter fetcher -/

/-- Environment of one `download_chapter` call (with `chapter_number`
supplied by the caller, as `download_manga` does): the page resolver's
response (`client.at_home.get_image_urls`; `.error` is a raised exception),
the files already in the chapter directory, and whether `_download_image`
eventually succeeds for each URL after its internal retries. -/
structure DLEnv where
  resolver : Except String (List String)
  existingFiles : List String
  pageOk : String → Bool

/-- `len(set(chapter_dir.glob("*.*")))`: the files whose name contains a dot. -/
def globCount (files : List String) : Nat :=
  (files.filter (fun n => n.data.contains '.')).length

/-- Python `f"{idx:03d}"` for the 1-based page index. -/
def pad3 (n : Nat) : String :=
  if n < 10 then "00" ++ toString n
  else if n < 100 then "0" ++ toString n
  else toString n

/-- `url.split(".")[-1]`. -/
def urlExt (url : String) : String :=
  String.mk ((splitDot url.data []).getLastD url.data)

/-- The page file name `f"{idx:03d}.{ext}"`. -/
def pageFileName (idx : Nat) (url : String) : String := pad3 idx ++ "." ++ urlExt url

/-- Observable outcome of one `download_chapter` call: how often the page
resolver was called, whether the chapter directory was created, how many page
downloads were attempted, which page files were written, and whether the call
returned the directory (`ok = true`) or raised `DownloadException`
(`ok = false`). -/
structure DLResult where
  resolverCalls : Nat
  dirCreated : Bool
  attempted : Nat
  written : List String
  ok : Bool
deriving DecidableEq, Repr

/-- `download_chapter`: resolve the page URLs (one resolver call, always);
raise when the list is empty; create the directory; return at once when the
existing file count equals the page count; skip pages whose target file
exists; attempt the rest and return the directory whatever the per-page
outcomes are (a shortfall is only logged). -/
def downloadChapter (env : DLEnv) : DLResult :=
  match env.resolver with
  | .error _ => ⟨1, false, 0, [], false⟩
  | .ok urls =>
      if urls.isEmpty then ⟨1, false, 0, [], false⟩
      else if globCount env.existingFiles = urls.length then ⟨1, true, 0, [], true⟩
      else
        let tasks := (urls.enum.map (fun p => (p.1 + 1, p.2))).filter
          (fun p => !(env.existingFiles.contains (pageFileName p.1 p.2)))
        if tasks.isEmpty then ⟨1, true, 0, [], true⟩
        else
          ⟨1, true, tasks.length,
            (tasks.filter (fun p => env.pageOk p.2)).map (fun p => pageFileName p.1 p.2),
            true⟩

/-! ## The numeric range filter -/

/-- Numeric value of a digit character. -/
def charDigit (c : Char) : Nat := c.toNat - 48

/-- Value of a digit run. -/
def natVal (ds : List Char) : Nat := ds.foldl (fun a c => 10 * a + charDigit c) 0

/-- Python `float(s)` on the plain decimal grammar (surrounding whitespace,
optional sign, digits with an optional fractional part): `none` is a raised
`ValueError`.  Values are taken in `ℚ`; scientific notation, `inf` and `nan`
are outside the chapter-number strings this program feeds to `float`. -/
def pyFloat (s : String) : Option ℚ :=
  let cs := trimL s.data
  let sr : ℚ × List Char :=
    match cs with
    | '+' :: r => (1, r)
    | '-' :: r => (-1, r)
    | r => (1, r)
  let ip := sr.2.takeWhile Char.isDigit
  let rest := sr.2.dropWhile Char.isDigit
  match rest with
  | [] => if ip.isEmpty then none else some (sr.1 * (natVal ip : ℚ))
  | '.' :: frac =>
      let fp := frac.takeWhile Char.isDigit
      if !(frac.dropWhile Char.isDigit).isEmpty then none
      else if ip.isEmpty && fp.isEmpty then none
      else some (sr.1 * ((natVal ip : ℚ) + (natVal fp : ℚ) / (10 : ℚ) ^ fp.length))
  | _ => none

/-- The range filter of `download_chapter_range` over the chapters' `chapter`
fields (`none` is an absent key, defaulted to `"0"` by `ch.get("chapter",
"0")`): keep a chapter when its number parses and lies in `[s, e]`; a
`ValueError` from `float` is caught and the chapter dropped. -/
def rangeFilter (s e : ℚ) (chapters : List (Option String)) : List (Option String) :=
  chapters.filter (fun ch =>
    match pyFloat (ch.getD "0") with
    | some q => decide (s ≤ q ∧ q ≤ e)
    | none => false)

/-! ## Concrete inputs used by witnesses and counterexamples -/

/-- The local assignment of the spec's convergence scenario. -/
def exampleLocal : List (String × Option String) := [("1", some "1"), ("2", none)]

/-- The remote chapter rows of the spec's convergence scenario. -/
def exampleRemote : List (String × Option String) :=
  [("1", some "2"), ("2", none), ("3", some "2")]

/-- A manga directory holding the same chapter both as `Vol.1/Ch.1` and as
`Vol.2/Ch.1`. -/
def fsDup : MangaFS := ⟨[⟨some "1", "1", 0⟩, ⟨some "2", "1", 1⟩], ["1", "2"]⟩

/-- A manga directory with the single chapter `Ch.1` under the root. -/
def fsSimple : MangaFS := ⟨[⟨none, "1", 0⟩], []⟩

/-- A manga directory holding `Ch.5` both under the root and inside `Vol.2`. -/
def fsRootAndVol : MangaFS := ⟨[⟨none, "5", 0⟩, ⟨some "2", "5", 1⟩], ["2"]⟩

/-- A manga directory where `Vol.1/Ch.1` is the only chapter. -/
def fsOneVol : MangaFS := ⟨[⟨some "1", "1", 0⟩], ["1"]⟩

/-- A fetch whose chapter directory already holds as many files as there are
pages. -/
def envComplete : DLEnv :=
  ⟨.ok ["s/a.png", "s/b.png"], ["001.png", "002.png"], fun _ => true⟩

/-- A fetch with one page whose download fails even after retries. -/
def envAllFail : DLEnv := ⟨.ok ["s/a.png"], [], fun _ => false⟩

/-- A fetch where the page resolver returns no URLs. -/
def envNoUrls : DLEnv := ⟨.ok [], [], fun _ => true⟩

/-- A downloads root holding one legacy-named manga directory `en`. -/
def rootLegacy : List (String × MangaFS) := [("en", fsOneVol)]

/-- A reconciliation run whose directory scans succeed but whose catalog
call raises and whose renames all fail — every such raise is internal to a
handler. -/
def envRecOk : RecEnv :=
  ⟨.error "catalog down", allOk, fun _ => false, true, fun _ => true⟩

/-- A reconciliation run where the `has_chapters` child scan of the legacy
candidate raises an OS error. -/
def envRecBad : RecEnv :=
  ⟨.ok [], allOk, fun _ => true, true, fun _ => false⟩

/-! ## Invariants of a real on-disk manga directory -/

/-- Each chapter number names at most one directory (no duplicate copies). -/
abbrev NodupNums (fs : MangaFS) : Prop := (fs.chaps.map ChapDir.num).Nodup

/-- A directory entry inside `Vol.{v}` implies the directory `Vol.{v}`
exists — true of any state reachable on a real filesystem. -/
abbrev WfFS (fs : MangaFS) : Prop :=
  ∀ d ∈ fs.chaps, ∀ v, d.vol = some v → v ∈ fs.vols

/-- The chapter directories named `Ch.{n}`. -/
def chapsAt (l : List ChapDir) (n : String) : List ChapDir :=
  l.filter (fun d => d.num == n)

/-! ## Dictionary lemmas -/

theorem lookupD_nil (k : String) : lookupD ([] : List (String × α)) k = none := rfl

theorem lookupD_cons (p : String × α) (t : List (String × α)) (k : String) :
    lookupD (p :: t) k = if p.1 = k then some p.2 else lookupD t k := by
  by_cases h : p.1 = k
  · have hb : (p.1 == k) = true := beq_iff_eq.mpr h
    simp [lookupD, List.find?, hb, h]
  · have hb : (p.1 == k) = false := beq_eq_false_iff_ne.mpr h
    simp [lookupD, List.find?, hb, h]

theorem lookupD_dictInsert (d : List (String × α)) (k m : String) (v : α) :
    lookupD (dictInsert d k v) m = if m = k then some v else lookupD d m := by
  induction d with
  | nil =>
      show lookupD [(k, v)] m = _
      rw [lookupD_cons]
      by_cases h : m = k
      · simp [h]
      · simp [h, Ne.symm h]
  | cons p t ih =>
      obtain ⟨a, b⟩ := p
      by_cases hpk : a = k
      · subst hpk
        show lookupD (dictInsert ((a, b) :: t) a v) m = _
        rw [dictInsert, if_pos rfl, lookupD_cons, lookupD_cons]
        by_cases h : m = a
        · simp [h]
        · simp [h, Ne.symm h]
      · rw [dictInsert, if_neg hpk, lookupD_cons, lookupD_cons, ih]
        by_cases ham : a = m
        · have hmk : ¬ m = k := fun hh => hpk (ham.trans hh)
          simp [ham, hmk]
        · simp [ham]

theorem mem_keys_dictInsert (d : List (String × α)) (k m : String) (v : α) :
    m ∈ (dictInsert d k v).map Prod.fst ↔ m = k ∨ m ∈ d.map Prod.fst := by
  induction d with
  | nil => simp [dictInsert]
  | cons p t ih =>
      obtain ⟨a, b⟩ := p
      by_cases hpk : a = k
      · subst hpk
        rw [dictInsert, if_pos rfl]
        simp
      · rw [dictInsert, if_neg hpk]
        simp [ih]
        tauto

theorem nodupKeys_dictInsert (d : List (String × α)) (k : String) (v : α)
    (h : NodupKeys d) : NodupKeys (dictInsert d k v) := by
  induction d with
  | nil => simp [dictInsert, NodupKeys]
  | cons p t ih =>
      obtain ⟨a, b⟩ := p
      have hp : a ∉ t.map Prod.fst := (List.nodup_cons.mp h).1
      have ht : NodupKeys t := (List.nodup_cons.mp h).2
      by_cases hpk : a = k
      · subst hpk
        rw [NodupKeys, dictInsert, if_pos rfl]
        exact List.nodup_cons.mpr ⟨hp, ht⟩
      · rw [NodupKeys, dictInsert, if_neg hpk, List.map_cons]
        refine List.nodup_cons.mpr ⟨?_, ih ht⟩
        intro hmem
        rcases (mem_keys_dictInsert t k a v).mp hmem with h' | h'
        · exact hpk h'
        · exact hp h'

theorem lookupD_eq_some_iff_mem (d : List (String × α)) (h : NodupKeys d) (k : String) (v : α) :
    lookupD d k = some v ↔ (k, v) ∈ d := by
  induction d with
  | nil => simp [lookupD_nil]
  | cons p t ih =>
      obtain ⟨a, b⟩ := p
      have hp : a ∉ t.map Prod.fst := (List.nodup_cons.mp h).1
      have ht : NodupKeys t := (List.nodup_cons.mp h).2
      rw [lookupD_cons]
      by_cases hak : a = k
      · subst hak
        rw [if_pos rfl]
        simp
        constructor
        · intro hv
          exact Or.inl hv.symm
        · rintro (h' | h')
          · exact h'.symm
          · exact absurd (List.mem_map_of_mem Prod.fst h') hp
      · rw [if_neg hak]
        rw [ih ht]
        simp
        intro h1 h2
        exact absurd h1.symm hak

/-! ## The diff step -/

theorem mem_computeChanges (api loc : List (String × Option String)) (h : NodupKeys api)
    (c : Change) :
    c ∈ computeChanges api loc ↔
      lookupD api c.num = some c.toVol ∧ lookupD loc c.num = some c.fromVol ∧
        c.fromVol ≠ c.toVol := by
  rw [computeChanges, List.mem_filterMap]
  constructor
  · rintro ⟨p, hp, hfp⟩
    rcases hl : lookupD loc p.1 with _ | lv
    · simp only [hl] at hfp
      exact absurd hfp (by simp)
    · simp only [hl] at hfp
      by_cases hne : lv ≠ p.2
      · rw [if_pos hne] at hfp
        obtain rfl : (⟨p.1, lv, p.2⟩ : Change) = c := Option.some.inj hfp
        exact ⟨(lookupD_eq_some_iff_mem api h p.1 p.2).mpr hp, hl, hne⟩
      · rw [if_neg hne] at hfp
        exact absurd hfp (by simp)
  · rintro ⟨ha, hl, hne⟩
    refine ⟨(c.num, c.toVol), (lookupD_eq_some_iff_mem api h c.num c.toVol).mp ha, ?_⟩
    simp only [hl]
    rw [if_pos hne]

/-- C1: the diff step records a StructureChange exactly for the chapter
numbers present in both assignments whose volumes differ under exact
string-or-null equality; on the local assignment `{"1": "1", "2": None}` and
the remote rows `[("1","2"), ("2",None), ("3","2")]` it computes exactly
`[{chapter "1", from "1", to "2"}]`. -/
theorem c1_diff_records_exactly_mismatches :
    (∀ api loc : List (String × Option String), NodupKeys api → ∀ c : Change,
        (c ∈ computeChanges api loc ↔
          lookupD api c.num = some c.toVol ∧ lookupD loc c.num = some c.fromVol ∧
            c.fromVol ≠ c.toVol))
    ∧ computeChanges (buildApi exampleRemote) exampleLocal = [⟨"1", some "1", some "2"⟩] :=
  ⟨fun api loc h c => mem_computeChanges api loc h c, rfl⟩

theorem c1_diff_records_exactly_mismatches_witness :
    (⟨"1", some "1", some "2"⟩ : Change) ∈ computeChanges (buildApi exampleRemote) exampleLocal ↔
      lookupD (buildApi exampleRemote) "1" = some (some "2") ∧
        lookupD exampleLocal "1" = some (some "1") ∧ (some "1" : Option String) ≠ some "2" :=
  c1_diff_records_exactly_mismatches.1 (buildApi exampleRemote) exampleLocal (by decide)
    ⟨"1", some "1", some "2"⟩

/-! ## The chapter fetcher: claims C3, C4, C5 -/

/-- C3 counterexample: a chapter directory already holding as many files as
there are pages makes `download_chapter` return at once with no page
downloads — but the page resolver has still been called once, not zero
times (the URL list is what the expected page count is read from). -/
theorem c3_counterexample_resolver_still_called :
    envComplete.resolver = .ok ["s/a.png", "s/b.png"] ∧
      globCount envComplete.existingFiles = 2 ∧
      downloadChapter envComplete =
        { resolverCalls := 1, dirCreated := true, attempted := 0, written := [], ok := true } ∧
      (downloadChapter envComplete).resolverCalls ≠ 0 :=
  ⟨rfl, rfl, rfl, by decide⟩

/-- C3 (amended): when the existing file count equals the page count, the
fetch returns the directory immediately — zero page downloads, zero files
written — after exactly one page-resolver call. -/
theorem c3_complete_chapter_skips (env : DLEnv) (urls : List String)
    (hres : env.resolver = .ok urls) (hne : urls ≠ [])
    (hcount : globCount env.existingFiles = urls.length) :
    downloadChapter env =
      { resolverCalls := 1, dirCreated := true, attempted := 0, written := [], ok := true } := by
  simp only [downloadChapter, hres]
  rw [if_neg (by simp [hne]), if_pos hcount]

theorem c3_complete_chapter_skips_witness :
    downloadChapter envComplete =
      { resolverCalls := 1, dirCreated := true, attempted := 0, written := [], ok := true } :=
  c3_complete_chapter_skips envComplete ["s/a.png", "s/b.png"] rfl (by decide) rfl

/-- C4 counterexample: with one page that fails even after all retries
(every page fails), `download_chapter` does not raise `DownloadException`:
it logs the shortfall and returns the directory. -/
theorem c4_counterexample_all_pages_fail_yet_no_failure :
    envAllFail.resolver = .ok ["s/a.png"] ∧
      (downloadChapter envAllFail).attempted = 1 ∧
      (downloadChapter envAllFail).written = [] ∧
      (downloadChapter envAllFail).ok = true :=
  ⟨rfl, rfl, rfl, rfl⟩

/-- C4 (amended): once the resolved page URL list is non-empty,
`download_chapter` returns the directory whatever the per-page outcomes are;
page-level failures never propagate to the chapter level, not even when all
pages fail. -/
theorem c4_page_failures_never_fail_chapter (env : DLEnv) (urls : List String)
    (hres : env.resolver = .ok urls) (hne : urls ≠ []) :
    (downloadChapter env).ok = true := by
  simp only [downloadChapter, hres]
  rw [if_neg (by simp [hne])]
  by_cases hc : globCount env.existingFiles = urls.length
  · rw [if_pos hc]
  · rw [if_neg hc]
    split <;> rfl

theorem c4_page_failures_never_fail_chapter_witness :
    (downloadChapter envAllFail).ok = true :=
  c4_page_failures_never_fail_chapter envAllFail ["s/a.png"] rfl (by decide)

/-- C5: when the page resolver returns an empty URL list, `download_chapter`
raises `DownloadException` at once: the chapter directory is not created, no
page download is attempted, no file is written. -/
theorem c5_empty_urls_fail_with_no_partial_state (env : DLEnv)
    (hres : env.resolver = .ok []) :
    downloadChapter env =
      { resolverCalls := 1, dirCreated := false, attempted := 0, written := [], ok := false } := by
  simp only [downloadChapter, hres]
  rfl

theorem c5_empty_urls_fail_with_no_partial_state_witness :
    downloadChapter envNoUrls =
      { resolverCalls := 1, dirCreated := false, attempted := 0, written := [], ok := false } :=
  c5_empty_urls_fail_with_no_partial_state envNoUrls rfl

/-! ## Reconciliation never fails the download: claim C6 -/

theorem updateVolumeStructureE_isOk (env : RecEnv) (fs : MangaFS) :
    ∃ fs', updateVolumeStructureE env fs = .ok fs' := by
  cases h : updateVolumeStructureBody env fs with
  | ok fs' => exact ⟨fs', by rw [updateVolumeStructureE, h]⟩
  | error e => exact ⟨fs, by rw [updateVolumeStructureE, h]⟩

theorem legacyFind_ok (env : RecEnv) (hchild : ∀ name, env.childScanOk name = true)
    (l : List (String × MangaFS)) : ∃ o, legacyFind env l = .ok o := by
  induction l with
  | nil => exact ⟨none, rfl⟩
  | cons p t ih =>
      rw [legacyFind]
      by_cases hn : legacyNameTest p.1 = true
      · rw [if_pos hn, if_pos (hchild p.1)]
        by_cases hc : hasChapters p.2 = true
        · rw [if_pos hc]
          by_cases hr : env.renameOk p.1 = true
          · rw [if_pos hr]
            exact ⟨some p.1, rfl⟩
          · rw [if_neg hr]
            exact ih
        · rw [if_neg hc]
          exact ih
      · rw [if_neg hn]
        exact ih

/-- C6 counterexample: the directory scans of the legacy-rename sub-step
(`download_dir.iterdir()` and the `existing_dir.iterdir()` inside
`has_chapters`) sit outside every `try/except` in `_auto_update_structure`.
With a legacy candidate `en` whose child scan raises an OS error, the raise
escapes the Reconciler — `download_manga` catches it and re-raises
`DownloadException`, failing the overall download — refuting "every error
raised inside it is caught and logged inside the Reconciler". -/
theorem c6_counterexample_scan_error_escapes :
    autoUpdateStructureE envRecBad rootLegacy "Some Manga" = .error "iterdir"
    ∧ (autoUpdateStructureE envRecBad rootLegacy "Some Manga" = .ok rootLegacy) = False :=
  ⟨rfl, by
    rw [show autoUpdateStructureE envRecBad rootLegacy "Some Manga" = .error "iterdir"
      from rfl]
    simp⟩

/-- C6 (amended): every raise from the catalog call, from a folder rename,
and from the per-change filesystem mutations is caught and logged inside the
Reconciler — `_update_volume_structure` never raises, and a failed rename
only continues the loop — but an OS error raised by the unguarded directory
scans of the legacy-rename sub-step escapes `_auto_update_structure` and
fails the overall download; reconciliation returns normally whenever those
scans succeed. -/
theorem c6_reconciliation_errors_confined (env : RecEnv) (root : List (String × MangaFS))
    (safeTitle : String) (hroot : env.rootScanOk = true)
    (hchild : ∀ name, env.childScanOk name = true) :
    (∃ r, autoUpdateStructureE env root safeTitle = .ok r)
    ∧ ∀ fs, ∃ fs', updateVolumeStructureE env fs = .ok fs' := by
  constructor
  · have hstage : ∃ root1,
        (if (root.find? (fun p => p.1 == safeTitle)).isSome then .ok root
         else legacyRenameE env root safeTitle :
           Except String (List (String × MangaFS))) = .ok root1 := by
      by_cases hex : (root.find? (fun p => p.1 == safeTitle)).isSome = true
      · rw [if_pos hex]
        exact ⟨root, rfl⟩
      · rw [if_neg hex, legacyRenameE, if_pos hroot]
        obtain ⟨o, ho⟩ := legacyFind_ok env hchild root
        rw [ho]
        cases o with
        | none => exact ⟨root, rfl⟩
        | some nm => exact ⟨_, rfl⟩
    obtain ⟨root1, h1⟩ := hstage
    rw [autoUpdateStructureE]
    simp only [h1]
    cases h2 : root1.find? (fun p => p.1 == safeTitle) with
    | some p =>
        rw [updateStage]
        obtain ⟨fs', hfs⟩ := updateVolumeStructureE_isOk env p.2
        simp only [hfs]
        exact ⟨_, rfl⟩
    | none =>
        rw [updateStage]
        exact ⟨_, rfl⟩
  · exact updateVolumeStructureE_isOk env

theorem c6_reconciliation_errors_confined_witness :
    (∃ r, autoUpdateStructureE envRecOk rootLegacy "Some Manga" = .ok r)
    ∧ ∀ fs, ∃ fs', updateVolumeStructureE envRecOk fs = .ok fs' :=
  c6_reconciliation_errors_confined envRecOk rootLegacy "Some Manga" rfl (fun _ => rfl)

/-! ## The layout model: claim C7 -/

theorem foldl_replaceChar (l : List Char) (hl : '_' ∉ l) (s : List Char) :
    l.foldl replaceChar s = s.map (fun c => if c ∈ l then '_' else c) := by
  induction l generalizing s with
  | nil =>
      simp
  | cons c t ih =>
      have hu : '_' ∉ t := fun h => hl (List.mem_cons_of_mem _ h)
      rw [List.foldl_cons, ih hu, replaceChar, List.map_map]
      apply List.map_congr_left
      intro a _
      by_cases hac : a = c
      · subst hac
        simp [hu]
      · simp [hac]

theorem volumeSpecified_some (v : String) :
    volumeSpecified (some v) =
      !((["none", "null", ""] : List String).contains (lowerStr v)) := by
  by_cases hv : v = ""
  · subst hv
    rfl
  · have h1 : (v != "") = true := bne_iff_ne.mpr hv
    rw [volumeSpecified, h1, Bool.true_and]

/-- C7: `_get_chapter_dir` puts the chapter under `Vol.{volume}` exactly when
the volume is non-null and, case-insensitively, not one of `"none"`,
`"null"`, `""`, and directly under the manga directory otherwise; the title
segment is the title with every occurrence of `<>:"/\|?*` replaced by `'_'`
and then stripped.  (The function is a pure function of its arguments.) -/
theorem c7_layout_model :
    (∀ t : String, sanitizeFilename t =
        trimStr (String.mk (t.data.map (fun c => if c ∈ invalidChars then '_' else c))))
    ∧ (∀ (root : List String) (t c : String),
        getChapterDir root t none c = root ++ [sanitizeFilename t, "Ch." ++ c])
    ∧ (∀ (root : List String) (t v c : String),
        getChapterDir root t (some v) c =
          if lowerStr v ∈ (["none", "null", ""] : List String)
          then root ++ [sanitizeFilename t, "Ch." ++ c]
          else root ++ [sanitizeFilename t, "Vol." ++ v, "Ch." ++ c]) := by
  refine ⟨?_, ?_, ?_⟩
  · intro t
    rw [sanitizeFilename, foldl_replaceChar invalidChars (by decide) t.data]
  · intro root t c
    rfl
  · intro root t v c
    rw [getChapterDir]
    by_cases hmem : lowerStr v ∈ (["none", "null", ""] : List String)
    · have hv : volumeSpecified (some v) = false := by
        rw [volumeSpecified_some]
        simp [hmem]
      rw [if_neg (by rw [hv]; exact Bool.false_ne_true), if_pos hmem]
    · have hv : volumeSpecified (some v) = true := by
        rw [volumeSpecified_some]
        simp [hmem]
      rw [if_pos hv, if_neg hmem]

/-! ## The numeric range filter: claim C9 -/

/-- C9: range-mode filtering keeps a chapter exactly when its `chapter`
field (defaulted to `"0"` when absent) parses as a number lying in
`[s, e]`; a non-numeric chapter number such as `"extra"` raises `ValueError`
inside the per-chapter `try`, is caught there, and the chapter is simply
dropped — the filter itself never raises. -/
theorem c9_range_filter :
    (∀ (s e : ℚ) (chapters : List (Option String)) (ch : Option String),
        ch ∈ rangeFilter s e chapters ↔
          ch ∈ chapters ∧ ∃ q, pyFloat (ch.getD "0") = some q ∧ s ≤ q ∧ q ≤ e)
    ∧ pyFloat "extra" = none
    ∧ rangeFilter 0 1000 [some "extra", some "10.5"] = [some "10.5"] := by
  refine ⟨?_, rfl, ?_⟩
  · intro s e chapters ch
    rw [rangeFilter, List.mem_filter]
    constructor
    · rintro ⟨hmem, hpred⟩
      rcases hq : pyFloat (ch.getD "0") with _ | q
      · rw [hq] at hpred
        exact absurd hpred (by simp)
      · rw [hq] at hpred
        exact ⟨hmem, q, rfl, of_decide_eq_true hpred⟩
    · rintro ⟨hmem, q, hq, h1, h2⟩
      refine ⟨hmem, ?_⟩
      rw [hq]
      exact decide_eq_true ⟨h1, h2⟩
  · have h5 : pyFloat "10.5" =
        some ((1 : ℚ) * (((10 : ℕ) : ℚ) + ((5 : ℕ) : ℚ) / (10 : ℚ) ^ (1 : ℕ))) := rfl
    have hex : pyFloat "extra" = none := rfl
    simp [rangeFilter, List.filter, h5, hex]
    norm_num

/-! ## Move safety: claim C2 -/

theorem cleanupVolAux_chaps (e : FsEnv) (fs : MangaFS) (o : Option String) :
    (cleanupVolAux e fs o).chaps = fs.chaps := by
  cases o with
  | none => rfl
  | some fv =>
      rw [cleanupVolAux]
      by_cases hcond : fv ∈ fs.vols ∧ fs.chaps.all (fun x => x.vol != some fv) = true
      · rw [if_pos hcond]
        by_cases hr : e.rmdirOk = true
        · rw [if_pos hr]
        · rw [if_neg hr]
      · rw [if_neg hcond]

theorem cleanupVol_chaps (e : FsEnv) (fs : MangaFS) (c : Change) :
    (cleanupVol e fs c).chaps = fs.chaps :=
  cleanupVolAux_chaps e fs (truthyVol c.fromVol)

theorem applyMove_of_destExists (e : FsEnv) (fs : MangaFS) (c : Change)
    (h : destExists fs c = true) : applyMove e fs c = fs := by
  rw [applyMove, if_pos h]

theorem applyChange_chaps_of_destExists (e : FsEnv) (fs : MangaFS) (c : Change)
    (h : destExists fs c = true) : (applyChange e fs c).chaps = fs.chaps := by
  rw [applyChange]
  cases htv : truthyVol c.toVol with
  | none => rw [mkdirStep, applyMove_of_destExists e fs c h]
  | some v =>
      rw [mkdirStep]
      by_cases hv : v ∈ fs.vols
      · rw [if_pos hv, applyMove_of_destExists e fs c h]
      · rw [if_neg hv]
        by_cases hm : e.mkdirOk = true
        · rw [if_pos hm]
          have h' : destExists { fs with vols := fs.vols ++ [v] } c = true := h
          rw [applyMove_of_destExists e _ c h']
        · rw [if_neg hm]

theorem cleanupVol_vol_erased (e : FsEnv) (fs : MangaFS) (c : Change) (v : String)
    (hv : v ∈ fs.vols) (hnv : v ∉ (cleanupVol e fs c).vols) :
    truthyVol c.fromVol = some v ∧ fs.chaps.all (fun x => x.vol != some v) = true := by
  rw [cleanupVol] at hnv
  cases hfv : truthyVol c.fromVol with
  | none =>
      rw [hfv, cleanupVolAux] at hnv
      exact absurd hv hnv
  | some fv =>
      rw [hfv, cleanupVolAux] at hnv
      by_cases hcond : fv ∈ fs.vols ∧ fs.chaps.all (fun x => x.vol != some fv) = true
      · rw [if_pos hcond] at hnv
        by_cases hr : e.rmdirOk = true
        · rw [if_pos hr] at hnv
          have hvfv : v = fv := by
            by_contra hne
            exact hnv ((List.mem_erase_of_ne hne).mpr hv)
          subst hvfv
          exact ⟨rfl, hcond.2⟩
        · rw [if_neg hr] at hnv
          exact absurd hv hnv
      · rw [if_neg hcond] at hnv
        exact absurd hv hnv

theorem applyMove_vol_erased (e : FsEnv) (fs : MangaFS) (c : Change) (v : String)
    (hv : v ∈ fs.vols) (hnv : v ∉ (applyMove e fs c).vols) :
    destExists fs c = false
    ∧ truthyVol c.fromVol = some v
    ∧ (∃ d ∈ fs.chaps, (d.vol == c.fromVol && d.num == c.num) = true)
    ∧ ∀ d ∈ (applyMove e fs c).chaps, d.vol ≠ some v := by
  by_cases hd : destExists fs c = true
  · rw [applyMove_of_destExists e fs c hd] at hnv
    exact absurd hv hnv
  · have hd0 : destExists fs c = false := by
      revert hd
      cases destExists fs c <;> simp
    rw [applyMove, if_neg hd] at hnv ⊢
    cases hf : fs.chaps.find? (fun d => d.vol == c.fromVol && d.num == c.num) with
    | none =>
        rw [hf] at hnv
        rw [moveStep] at hnv
        exact absurd hv hnv
    | some d =>
        rw [hf] at hnv
        rw [moveStep] at hnv ⊢
        by_cases hm : e.moveOk c.num = true
        · rw [if_pos hm] at hnv ⊢
          have hv' : v ∈ (movedFS fs c d.content).vols := hv
          obtain ⟨hfrom, hall⟩ := cleanupVol_vol_erased e _ c v hv' hnv
          have hp := List.find?_some hf
          refine ⟨hd0, hfrom, ⟨d, List.mem_of_find?_eq_some hf, by simpa using hp⟩, ?_⟩
          intro x hx
          have hx' : x ∈ (movedFS fs c d.content).chaps := by
            rw [← cleanupVol_chaps e (movedFS fs c d.content) c]
            exact hx
          have := List.all_eq_true.mp hall x hx'
          simpa using this
        · rw [if_neg hm] at hnv
          exact absurd hv hnv

theorem applyChange_vol_erased (e : FsEnv) (fs : MangaFS) (c : Change) (v : String)
    (hv : v ∈ fs.vols) (hnv : v ∉ (applyChange e fs c).vols) :
    destExists fs c = false
    ∧ truthyVol c.fromVol = some v
    ∧ (∃ d ∈ fs.chaps, (d.vol == c.fromVol && d.num == c.num) = true)
    ∧ ∀ d ∈ (applyChange e fs c).chaps, d.vol ≠ some v := by
  rw [applyChange] at hnv ⊢
  cases htv : truthyVol c.toVol with
  | none =>
      rw [htv] at hnv
      rw [mkdirStep] at hnv ⊢
      exact applyMove_vol_erased e fs c v hv hnv
  | some tv =>
      rw [htv] at hnv
      rw [mkdirStep] at hnv ⊢
      by_cases hvin : tv ∈ fs.vols
      · rw [if_pos hvin] at hnv ⊢
        exact applyMove_vol_erased e fs c v hv hnv
      · rw [if_neg hvin] at hnv ⊢
        by_cases hm : e.mkdirOk = true
        · rw [if_pos hm] at hnv ⊢
          have hv1 : v ∈ ({ fs with vols := fs.vols ++ [tv] } : MangaFS).vols :=
            List.mem_append_left _ hv
          exact applyMove_vol_erased e _ c v hv1 hnv
        · rw [if_neg hm] at hnv
          exact absurd hv hnv

/-- C2: during the apply loop, a change whose destination already exists is
skipped — the chapter directories (in particular the source) are left exactly
as they were — while the remaining changes are still processed; and a source
volume directory is removed only when that change's move actually happened
(destination free, source present) and the directory is empty afterwards. -/
theorem c2_move_safety (e : FsEnv) (fs : MangaFS) (c : Change) (cs : List Change) :
    (applyChanges e fs (c :: cs) = applyChanges e (applyChange e fs c) cs)
    ∧ (destExists fs c = true → (applyChange e fs c).chaps = fs.chaps)
    ∧ (∀ v, v ∈ fs.vols → v ∉ (applyChange e fs c).vols →
        destExists fs c = false
        ∧ truthyVol c.fromVol = some v
        ∧ (∃ d ∈ fs.chaps, (d.vol == c.fromVol && d.num == c.num) = true)
        ∧ ∀ d ∈ (applyChange e fs c).chaps, d.vol ≠ some v) :=
  ⟨rfl, applyChange_chaps_of_destExists e fs c,
    fun v hv hnv => applyChange_vol_erased e fs c v hv hnv⟩

theorem c2_move_safety_witness :
    (applyChange allOk fsDup ⟨"1", some "2", some "1"⟩).chaps = fsDup.chaps
    ∧ (destExists fsOneVol ⟨"1", some "1", some "2"⟩ = false
        ∧ truthyVol (some "1") = some "1"
        ∧ (∃ d ∈ fsOneVol.chaps, (d.vol == some "1" && d.num == "1") = true)
        ∧ ∀ d ∈ (applyChange allOk fsOneVol ⟨"1", some "1", some "2"⟩).chaps,
            d.vol ≠ some "1") :=
  ⟨(c2_move_safety allOk fsDup ⟨"1", some "2", some "1"⟩ []).2.1 (by decide),
   (c2_move_safety allOk fsOneVol ⟨"1", some "1", some "2"⟩ []).2.2 "1" (by decide) (by decide)⟩

/-! ## Scan order: claim C10 -/

theorem dictOf_nil (d : List (String × α)) : dictOf d [] = d := rfl

theorem dictOf_cons (d : List (String × α)) (p : String × α) (t : List (String × α)) :
    dictOf d (p :: t) = dictOf (dictInsert d p.1 p.2) t := rfl

theorem lookupD_dictOf (l : List (String × α)) (d : List (String × α)) (n : String) :
    lookupD (dictOf d l) n =
      match l.reverse.find? (fun p => p.1 == n) with
      | some p => some p.2
      | none => lookupD d n := by
  induction l generalizing d with
  | nil => simp [dictOf_nil]
  | cons p t ih =>
      rw [dictOf_cons, ih, List.reverse_cons, List.find?_append]
      cases hf : t.reverse.find? (fun q => q.1 == n) with
      | some q => rfl
      | none =>
          by_cases hpn : p.1 = n
          · have hb : (p.1 == n) = true := beq_iff_eq.mpr hpn
            simp [List.find?, hb, lookupD_dictInsert, hpn]
          · have hb : (p.1 == n) = false := beq_eq_false_iff_ne.mpr hpn
            simp [List.find?, hb, lookupD_dictInsert, Ne.symm hpn]

theorem lookupD_scanLocal (fs : MangaFS) (n : String) :
    lookupD (scanLocal fs) n =
      match (volEntries fs).reverse.find? (fun p => p.1 == n) with
      | some p => some p.2
      | none =>
          match (rootEntries fs).reverse.find? (fun p => p.1 == n) with
          | some p => some p.2
          | none => none := by
  rw [scanLocal, lookupD_dictOf]
  cases (volEntries fs).reverse.find? (fun p => p.1 == n) with
  | some p => rfl
  | none =>
      rw [lookupD_dictOf]
      cases (rootEntries fs).reverse.find? (fun p => p.1 == n) with
      | some p => rfl
      | none => rfl

theorem mem_chaps_applyMove (e : FsEnv) (fs : MangaFS) (c : Change) (d : ChapDir)
    (hd : d ∈ fs.chaps) (hne : (d.vol == c.fromVol && d.num == c.num) = false) :
    d ∈ (applyMove e fs c).chaps := by
  rw [applyMove]
  by_cases hdx : destExists fs c = true
  · rw [if_pos hdx]
    exact hd
  · rw [if_neg hdx]
    cases hf : fs.chaps.find? (fun x => x.vol == c.fromVol && x.num == c.num) with
    | none =>
        rw [moveStep]
        exact hd
    | some x =>
        rw [moveStep]
        by_cases hm : e.moveOk c.num = true
        · rw [if_pos hm, cleanupVol_chaps]
          exact List.mem_append_left _ ((List.mem_eraseP_of_neg (by simp [hne])).mpr hd)
        · rw [if_neg hm]
          exact hd

theorem mem_chaps_applyChange (e : FsEnv) (fs : MangaFS) (c : Change) (d : ChapDir)
    (hd : d ∈ fs.chaps) (hne : (d.vol == c.fromVol && d.num == c.num) = false) :
    d ∈ (applyChange e fs c).chaps := by
  rw [applyChange]
  cases htv : truthyVol c.toVol with
  | none =>
      rw [mkdirStep]
      exact mem_chaps_applyMove e fs c d hd hne
  | some tv =>
      rw [mkdirStep]
      by_cases hvin : tv ∈ fs.vols
      · rw [if_pos hvin]
        exact mem_chaps_applyMove e fs c d hd hne
      · rw [if_neg hvin]
        by_cases hm : e.mkdirOk = true
        · rw [if_pos hm]
          exact mem_chaps_applyMove e { fs with vols := fs.vols ++ [tv] } c d hd hne
        · rw [if_neg hm]
          exact hd

/-- C10: the scan reads root `Ch.*` entries first and `Vol.*/Ch.*` entries
second, with later dict assignments overwriting earlier ones; so when a
chapter exists both as `Ch.{n}` under the manga root and as `Vol.{v}/Ch.{n}`,
the local assignment records volume `v` (the volume copy, which is also the
recorded source path), and a change moving chapter `n` out of `Vol.{v}`
leaves the root copy in place. -/
theorem c10_volume_copy_wins (fs : MangaFS) (n v : String) (a b : Nat)
    (hroot : (⟨none, n, a⟩ : ChapDir) ∈ fs.chaps)
    (hvol : (⟨some v, n, b⟩ : ChapDir) ∈ fs.chaps)
    (hv : v ∈ fs.vols)
    (huniq : ∀ d ∈ fs.chaps, d.num = n → d.vol = none ∨ d.vol = some v) :
    lookupD (scanLocal fs) n = some (some v)
    ∧ ∀ (e : FsEnv) (c : Change), c.num = n → c.fromVol = some v →
        (⟨none, n, a⟩ : ChapDir) ∈ (applyChange e fs c).chaps := by
  constructor
  · rw [lookupD_scanLocal]
    have hmem : ((n, some v) : String × Option String) ∈ (volEntries fs).reverse := by
      rw [List.mem_reverse, volEntries, List.mem_flatten]
      refine ⟨(fs.chaps.filter (fun d => d.vol == some v)).map (fun d => (d.num, some v)),
        List.mem_map_of_mem _ hv,
        List.mem_map_of_mem _ (List.mem_filter.mpr ⟨hvol, by simp⟩)⟩
    have hsome : ((volEntries fs).reverse.find? (fun p => p.1 == n)).isSome = true :=
      List.find?_isSome.mpr ⟨(n, some v), hmem, by simp⟩
    obtain ⟨q, hq⟩ := Option.isSome_iff_exists.mp hsome
    rw [hq]
    have hqn : q.1 = n := by
      have := List.find?_some hq
      simpa using this
    have hqmem : q ∈ volEntries fs := List.mem_reverse.mp (List.mem_of_find?_eq_some hq)
    rw [volEntries, List.mem_flatten] at hqmem
    obtain ⟨l, hl, hql⟩ := hqmem
    obtain ⟨w, hw, rfl⟩ := List.mem_map.mp hl
    obtain ⟨dch, hdch, rfl⟩ := List.mem_map.mp hql
    have hdmem : dch ∈ fs.chaps := (List.mem_filter.mp hdch).1
    have hdvol : dch.vol = some w := by
      have := (List.mem_filter.mp hdch).2
      simpa using this
    have hdn : dch.num = n := hqn
    rcases huniq dch hdmem hdn with h0 | h0
    · rw [h0] at hdvol
      exact absurd hdvol (by simp)
    · rw [h0] at hdvol
      obtain rfl : v = w := Option.some.inj hdvol
      rfl
  · intro e c hcn hcf
    apply mem_chaps_applyChange e fs c _ hroot
    rw [hcf]
    simp

theorem c10_volume_copy_wins_witness :
    lookupD (scanLocal fsRootAndVol) "5" = some (some "2")
    ∧ (⟨none, "5", 0⟩ : ChapDir) ∈ (applyChange allOk fsRootAndVol ⟨"5", some "2", none⟩).chaps :=
  ⟨(c10_volume_copy_wins fsRootAndVol "5" "2" 0 1 (by decide) (by decide) (by decide)
      (by decide)).1,
   (c10_volume_copy_wins fsRootAndVol "5" "2" 0 1 (by decide) (by decide) (by decide)
      (by decide)).2 allOk ⟨"5", some "2", none⟩ rfl rfl⟩

/-! ## Reconciliation idempotence: claim C8 -/

theorem applyChanges_cons (e : FsEnv) (fs : MangaFS) (c : Change) (t : List Change) :
    applyChanges e fs (c :: t) = applyChanges e (applyChange e fs c) t := rfl

theorem truthyVol_normalizeVolume (v : Option String) :
    truthyVol (normalizeVolume v) = normalizeVolume v := by
  cases v with
  | none => rfl
  | some s =>
      rw [normalizeVolume]
      by_cases hs : volumeSpecified (some s) = true
      · rw [if_pos hs, truthyVol]
        have hse : ¬ s = "" := by
          intro h
          subst h
          exact absurd hs (by decide)
        rw [if_neg hse]
      · rw [if_neg hs]
        rfl

theorem numsPerm_applyMove (e : FsEnv) (fs : MangaFS) (c : Change) :
    ((applyMove e fs c).chaps.map ChapDir.num).Perm (fs.chaps.map ChapDir.num) := by
  rw [applyMove]
  by_cases hdx : destExists fs c = true
  · rw [if_pos hdx]
  · rw [if_neg hdx]
    cases hf : fs.chaps.find? (fun x => x.vol == c.fromVol && x.num == c.num) with
    | none => rw [moveStep]
    | some x =>
        rw [moveStep]
        by_cases hm : e.moveOk c.num = true
        · rw [if_pos hm, cleanupVol_chaps]
          have hpx := @List.find?_some ChapDir
            (fun d => d.vol == c.fromVol && d.num == c.num) x fs.chaps hf
          obtain ⟨y, l₁, l₂, hnl₁, hpy, hleq, herase⟩ :=
            @List.exists_of_eraseP ChapDir
              (fun d => d.vol == c.fromVol && d.num == c.num) fs.chaps x
              (List.mem_of_find?_eq_some hf) hpx
          have hynum : y.num = c.num := by
            have := (Bool.and_eq_true _ _).mp hpy
            exact beq_iff_eq.mp this.2
          rw [movedFS, herase, hleq]
          rw [List.map_append, List.map_append, List.map_append, List.map_cons]
          rw [List.append_assoc]
          refine List.Perm.append_left _ ?_
          rw [List.map_cons, List.map_nil, hynum]
          exact List.perm_append_singleton _ _
        · rw [if_neg hm]

theorem numsPerm_applyChange (e : FsEnv) (fs : MangaFS) (c : Change) :
    ((applyChange e fs c).chaps.map ChapDir.num).Perm (fs.chaps.map ChapDir.num) := by
  rw [applyChange]
  cases htv : truthyVol c.toVol with
  | none =>
      rw [mkdirStep]
      exact numsPerm_applyMove e fs c
  | some tv =>
      rw [mkdirStep]
      by_cases hvin : tv ∈ fs.vols
      · rw [if_pos hvin]
        exact numsPerm_applyMove e fs c
      · rw [if_neg hvin]
        by_cases hm : e.mkdirOk = true
        · rw [if_pos hm]
          exact numsPerm_applyMove e { fs with vols := fs.vols ++ [tv] } c
        · rw [if_neg hm]

theorem nodupNums_applyChange (e : FsEnv) (fs : MangaFS) (c : Change)
    (h : NodupNums fs) : NodupNums (applyChange e fs c) :=
  (numsPerm_applyChange e fs c).nodup_iff.mpr h

theorem wf_cleanupVol (e : FsEnv) (fs : MangaFS) (c : Change) (hwf : WfFS fs) :
    WfFS (cleanupVol e fs c) := by
  rw [cleanupVol]
  cases truthyVol c.fromVol with
  | none => exact hwf
  | some fv =>
      rw [cleanupVolAux]
      by_cases hcond : fv ∈ fs.vols ∧ fs.chaps.all (fun x => x.vol != some fv) = true
      · rw [if_pos hcond]
        by_cases hr : e.rmdirOk = true
        · rw [if_pos hr]
          intro d hd w hw
          have hne : w ≠ fv := by
            intro h
            subst h
            have := List.all_eq_true.mp hcond.2 d hd
            rw [hw] at this
            simp at this
          exact (List.mem_erase_of_ne hne).mpr (hwf d hd w hw)
        · rw [if_neg hr]
          exact hwf
      · rw [if_neg hcond]
        exact hwf

theorem wf_applyMove (e : FsEnv) (fs : MangaFS) (c : Change) (hwf : WfFS fs)
    (hdv : ∀ tv, truthyVol c.toVol = some tv → tv ∈ fs.vols) :
    WfFS (applyMove e fs c) := by
  rw [applyMove]
  by_cases hdx : destExists fs c = true
  · rw [if_pos hdx]
    exact hwf
  · rw [if_neg hdx]
    cases hf : fs.chaps.find? (fun x => x.vol == c.fromVol && x.num == c.num) with
    | none =>
        rw [moveStep]
        exact hwf
    | some x =>
        rw [moveStep]
        by_cases hm : e.moveOk c.num = true
        · rw [if_pos hm]
          apply wf_cleanupVol
          intro d hd w hw
          rw [movedFS] at hd
          rcases List.mem_append.mp hd with hd' | hd'
          · exact hwf d (List.Sublist.subset (List.eraseP_sublist _) hd') w hw
          · have : d = ⟨truthyVol c.toVol, c.num, x.content⟩ := by
              simpa using hd'
            subst this
            exact hdv w hw
        · rw [if_neg hm]
          exact hwf

theorem wf_applyChange (e : FsEnv) (fs : MangaFS) (c : Change) (hwf : WfFS fs) :
    WfFS (applyChange e fs c) := by
  rw [applyChange]
  cases htv : truthyVol c.toVol with
  | none =>
      rw [mkdirStep]
      apply wf_applyMove e fs c hwf
      intro tv h
      rw [htv] at h
      exact absurd h (by simp)
  | some tv =>
      rw [mkdirStep]
      by_cases hvin : tv ∈ fs.vols
      · rw [if_pos hvin]
        apply wf_applyMove e fs c hwf
        intro tv' h
        rw [htv] at h
        obtain rfl : tv = tv' := Option.some.inj h
        exact hvin
      · rw [if_neg hvin]
        by_cases hm : e.mkdirOk = true
        · rw [if_pos hm]
          apply wf_applyMove
          · intro d hd w hw
            exact List.mem_append_left _ (hwf d hd w hw)
          · intro tv' h
            rw [htv] at h
            obtain rfl : tv = tv' := Option.some.inj h
            exact List.mem_append_right _ (List.mem_singleton.mpr rfl)
        · rw [if_neg hm]
          exact hwf

theorem chapsAt_applyMove_other (e : FsEnv) (fs : MangaFS) (c : Change) (n : String)
    (hne : c.num ≠ n) :
    chapsAt (applyMove e fs c).chaps n = chapsAt fs.chaps n := by
  rw [applyMove]
  by_cases hdx : destExists fs c = true
  · rw [if_pos hdx]
  · rw [if_neg hdx]
    cases hf : fs.chaps.find? (fun x => x.vol == c.fromVol && x.num == c.num) with
    | none => rw [moveStep]
    | some x =>
        rw [moveStep]
        by_cases hm : e.moveOk c.num = true
        · rw [if_pos hm, cleanupVol_chaps]
          have hpx := @List.find?_some ChapDir
            (fun d => d.vol == c.fromVol && d.num == c.num) x fs.chaps hf
          obtain ⟨y, l₁, l₂, hnl₁, hpy, hleq, herase⟩ :=
            @List.exists_of_eraseP ChapDir
              (fun d => d.vol == c.fromVol && d.num == c.num) fs.chaps x
              (List.mem_of_find?_eq_some hf) hpx
          have hynum : y.num = c.num := by
            have := (Bool.and_eq_true _ _).mp hpy
            exact beq_iff_eq.mp this.2
          have hyn : (y.num == n) = false := by
            rw [hynum]
            exact beq_eq_false_iff_ne.mpr hne
          have hcn : ((c.num : String) == n) = false := beq_eq_false_iff_ne.mpr hne
          rw [movedFS, herase, hleq, chapsAt, chapsAt]
          rw [List.filter_append, List.filter_append, List.filter_append,
            List.filter_cons]
          simp only [hyn, hcn, List.filter_cons, List.filter_nil]
          simp
        · rw [if_neg hm]

theorem chapsAt_applyChange_other (e : FsEnv) (fs : MangaFS) (c : Change) (n : String)
    (hne : c.num ≠ n) :
    chapsAt (applyChange e fs c).chaps n = chapsAt fs.chaps n := by
  rw [applyChange]
  cases htv : truthyVol c.toVol with
  | none =>
      rw [mkdirStep]
      exact chapsAt_applyMove_other e fs c n hne
  | some tv =>
      rw [mkdirStep]
      by_cases hvin : tv ∈ fs.vols
      · rw [if_pos hvin]
        exact chapsAt_applyMove_other e fs c n hne
      · rw [if_neg hvin]
        by_cases hm : e.mkdirOk = true
        · rw [if_pos hm]
          exact chapsAt_applyMove_other e { fs with vols := fs.vols ++ [tv] } c n hne
        · rw [if_neg hm]

theorem singleton_eq_append_cons {α : Type _} {x y : α} {A B : List α}
    (h : [x] = A ++ y :: B) : A = [] ∧ y = x ∧ B = [] := by
  cases A with
  | nil =>
      simp at h
      exact ⟨rfl, h.1.symm, h.2⟩
  | cons u t =>
      simp at h

theorem chapsAt_applyMove_hit (e : FsEnv) (fs : MangaFS) (c : Change) (a : Nat)
    (hm : e.moveOk c.num = true)
    (hchaps : chapsAt fs.chaps c.num = [⟨c.fromVol, c.num, a⟩])
    (hne : truthyVol c.toVol ≠ c.fromVol) :
    chapsAt (applyMove e fs c).chaps c.num = [⟨truthyVol c.toVol, c.num, a⟩] := by
  have hxmem : (⟨c.fromVol, c.num, a⟩ : ChapDir) ∈ fs.chaps := by
    have h1 : (⟨c.fromVol, c.num, a⟩ : ChapDir) ∈ chapsAt fs.chaps c.num := by
      rw [hchaps]
      exact List.mem_singleton.mpr rfl
    exact (List.mem_filter.mp h1).1
  have huniq : ∀ d ∈ fs.chaps, d.num = c.num → d = ⟨c.fromVol, c.num, a⟩ := by
    intro d hd hdn
    have hmem : d ∈ chapsAt fs.chaps c.num :=
      List.mem_filter.mpr ⟨hd, beq_iff_eq.mpr hdn⟩
    rw [hchaps] at hmem
    exact List.mem_singleton.mp hmem
  have hdest : ¬ destExists fs c = true := by
    intro h
    rw [destExists, List.any_eq_true] at h
    obtain ⟨d, hd, hp⟩ := h
    have hsplit := (Bool.and_eq_true _ _).mp hp
    have hdn : d.num = c.num := beq_iff_eq.mp hsplit.2
    have hdv : d.vol = truthyVol c.toVol := beq_iff_eq.mp hsplit.1
    have hde := huniq d hd hdn
    rw [hde] at hdv
    exact hne hdv.symm
  have hfind : fs.chaps.find? (fun d => d.vol == c.fromVol && d.num == c.num)
      = some ⟨c.fromVol, c.num, a⟩ := by
    have hsome : (fs.chaps.find? (fun d => d.vol == c.fromVol && d.num == c.num)).isSome
        = true :=
      List.find?_isSome.mpr ⟨_, hxmem, by simp⟩
    obtain ⟨y, hy⟩ := Option.isSome_iff_exists.mp hsome
    have hyp := @List.find?_some ChapDir
      (fun d => d.vol == c.fromVol && d.num == c.num) y fs.chaps hy
    have hymem := List.mem_of_find?_eq_some hy
    have hyn : y.num = c.num := beq_iff_eq.mp ((Bool.and_eq_true _ _).mp hyp).2
    rw [hy, huniq y hymem hyn]
  have hup : chapsAt
      (fs.chaps.eraseP (fun x => x.vol == c.fromVol && x.num == c.num)) c.num = [] := by
    obtain ⟨y, l₁, l₂, hnl₁, hpy, hleq, herase⟩ :=
      @List.exists_of_eraseP ChapDir
        (fun d => d.vol == c.fromVol && d.num == c.num) fs.chaps
        ⟨c.fromVol, c.num, a⟩ hxmem (by simp)
    have hyn : y.num = c.num := beq_iff_eq.mp ((Bool.and_eq_true _ _).mp hpy).2
    have hb : (y.num == c.num) = true := beq_iff_eq.mpr hyn
    have h2 : chapsAt fs.chaps c.num = chapsAt l₁ c.num ++ y :: chapsAt l₂ c.num := by
      rw [hleq, chapsAt, chapsAt, chapsAt, List.filter_append, List.filter_cons, hb]
      rfl
    rw [hchaps] at h2
    obtain ⟨hA, _, hB⟩ := singleton_eq_append_cons h2
    rw [herase, chapsAt, List.filter_append]
    rw [chapsAt] at hA hB
    rw [hA, hB]
    rfl
  rw [applyMove, if_neg hdest, hfind, moveStep, if_pos hm, cleanupVol_chaps, movedFS]
  rw [chapsAt, List.filter_append]
  rw [chapsAt] at hup
  rw [hup]
  have hb : ((c.num : String) == c.num) = true := beq_iff_eq.mpr rfl
  rw [List.filter_cons, hb]
  rfl

theorem chapsAt_applyChange_hit (fs : MangaFS) (c : Change) (a : Nat)
    (hchaps : chapsAt fs.chaps c.num = [⟨c.fromVol, c.num, a⟩])
    (hne : truthyVol c.toVol ≠ c.fromVol) :
    chapsAt (applyChange allOk fs c).chaps c.num = [⟨truthyVol c.toVol, c.num, a⟩] := by
  rw [applyChange]
  cases htv : truthyVol c.toVol with
  | none =>
      rw [mkdirStep]
      have h := chapsAt_applyMove_hit allOk fs c a rfl hchaps hne
      rw [htv] at h
      exact h
  | some tv =>
      rw [mkdirStep]
      by_cases hvin : tv ∈ fs.vols
      · rw [if_pos hvin]
        have h := chapsAt_applyMove_hit allOk fs c a rfl hchaps hne
        rw [htv] at h
        exact h
      · rw [if_neg hvin, if_pos (show allOk.mkdirOk = true from rfl)]
        have h := chapsAt_applyMove_hit allOk { fs with vols := fs.vols ++ [tv] } c a rfl
          hchaps hne
        rw [htv] at h
        exact h

theorem chapsAt_applyChanges_other (e : FsEnv) (cs : List Change) (fs : MangaFS) (n : String)
    (h : ∀ c ∈ cs, c.num ≠ n) :
    chapsAt (applyChanges e fs cs).chaps n = chapsAt fs.chaps n := by
  induction cs generalizing fs with
  | nil => rfl
  | cons c t ih =>
      rw [applyChanges_cons, ih _ (fun c' hc' => h c' (List.mem_cons_of_mem _ hc'))]
      exact chapsAt_applyChange_other e fs c n (h c (List.mem_cons_self _ _))

theorem nodupNums_applyChanges (e : FsEnv) (cs : List Change) (fs : MangaFS)
    (h : NodupNums fs) : NodupNums (applyChanges e fs cs) := by
  induction cs generalizing fs with
  | nil => exact h
  | cons c t ih =>
      rw [applyChanges_cons]
      exact ih _ (nodupNums_applyChange e fs c h)

theorem wf_applyChanges (e : FsEnv) (cs : List Change) (fs : MangaFS)
    (h : WfFS fs) : WfFS (applyChanges e fs cs) := by
  induction cs generalizing fs with
  | nil => exact h
  | cons c t ih =>
      rw [applyChanges_cons]
      exact ih _ (wf_applyChange e fs c h)

theorem chapsAt_applyChanges_hit (cs : List Change) (fs : MangaFS)
    (hnodup : (cs.map Change.num).Nodup)
    (hvalid : ∀ c ∈ cs, ∃ a, chapsAt fs.chaps c.num = [⟨c.fromVol, c.num, a⟩])
    (hne : ∀ c ∈ cs, truthyVol c.toVol ≠ c.fromVol) :
    ∀ c ∈ cs, ∃ a,
      chapsAt (applyChanges allOk fs cs).chaps c.num = [⟨truthyVol c.toVol, c.num, a⟩] := by
  induction cs generalizing fs with
  | nil =>
      intro c hc
      cases hc
  | cons c0 t ih =>
      have hnot : c0.num ∉ t.map Change.num := (List.nodup_cons.mp hnodup).1
      have htail : (t.map Change.num).Nodup := (List.nodup_cons.mp hnodup).2
      intro c hc
      rw [applyChanges_cons]
      rcases List.mem_cons.mp hc with rfl | hct
      · obtain ⟨a, ha⟩ := hvalid c (List.mem_cons_self _ _)
        have h1 := chapsAt_applyChange_hit fs c a ha (hne c (List.mem_cons_self _ _))
        rw [chapsAt_applyChanges_other allOk t _ c.num ?hnums]
        · exact ⟨a, h1⟩
        case hnums =>
          intro c' hc' hceq
          exact hnot (hceq ▸ List.mem_map_of_mem Change.num hc')
      · apply ih (applyChange allOk fs c0) htail ?hvalid ?hne c hct
        case hvalid =>
          intro c' hc'
          obtain ⟨a, ha⟩ := hvalid c' (List.mem_cons_of_mem _ hc')
          refine ⟨a, ?_⟩
          rw [chapsAt_applyChange_other allOk fs c0 c'.num ?hneq]
          · exact ha
          case hneq =>
            intro hceq
            exact hnot (hceq ▸ List.mem_map_of_mem Change.num hc')
        case hne =>
          intro c' hc'
          exact hne c' (List.mem_cons_of_mem _ hc')

theorem mem_rootEntries (fs : MangaFS) (p : String × Option String) :
    p ∈ rootEntries fs ↔ ∃ d ∈ fs.chaps, d.vol = none ∧ p = (d.num, none) := by
  rw [rootEntries]
  constructor
  · intro hp
    obtain ⟨d, hd, rfl⟩ := List.mem_map.mp hp
    have hdm := List.mem_filter.mp hd
    exact ⟨d, hdm.1, by simpa using hdm.2, rfl⟩
  · rintro ⟨d, hd, hdv, rfl⟩
    exact List.mem_map_of_mem _ (List.mem_filter.mpr ⟨hd, by simp [hdv]⟩)

theorem mem_volEntries (fs : MangaFS) (p : String × Option String) :
    p ∈ volEntries fs ↔
      ∃ w ∈ fs.vols, ∃ d ∈ fs.chaps, d.vol = some w ∧ p = (d.num, some w) := by
  rw [volEntries, List.mem_flatten]
  constructor
  · rintro ⟨l, hl, hpl⟩
    obtain ⟨w, hw, rfl⟩ := List.mem_map.mp hl
    obtain ⟨d, hd, rfl⟩ := List.mem_map.mp hpl
    have hdm := List.mem_filter.mp hd
    exact ⟨w, hw, d, hdm.1, by simpa using hdm.2, rfl⟩
  · rintro ⟨w, hw, d, hd, hdv, rfl⟩
    exact ⟨_, List.mem_map_of_mem _ hw,
      List.mem_map_of_mem _ (List.mem_filter.mpr ⟨hd, by simp [hdv]⟩)⟩

theorem chapsAt_cases (fs : MangaFS) (hnum : NodupNums fs) (n : String) :
    chapsAt fs.chaps n = [] ∨ ∃ d, chapsAt fs.chaps n = [d] ∧ d.num = n := by
  have hsub : List.Sublist ((chapsAt fs.chaps n).map ChapDir.num)
      (fs.chaps.map ChapDir.num) :=
    (List.filter_sublist _).map _
  have hnd : ((chapsAt fs.chaps n).map ChapDir.num).Nodup := hsub.nodup hnum
  cases hch : chapsAt fs.chaps n with
  | nil => exact Or.inl rfl
  | cons d t =>
      cases t with
      | nil =>
          refine Or.inr ⟨d, rfl, ?_⟩
          have hmem : d ∈ chapsAt fs.chaps n := by
            rw [hch]
            exact List.mem_singleton.mpr rfl
          exact beq_iff_eq.mp (List.mem_filter.mp hmem).2
      | cons d' t' =>
          exfalso
          rw [hch] at hnd
          have hd : d ∈ chapsAt fs.chaps n := by
            rw [hch]
            exact List.mem_cons_self _ _
          have hd' : d' ∈ chapsAt fs.chaps n := by
            rw [hch]
            exact List.mem_cons_of_mem _ (List.mem_cons_self _ _)
          have h1 : d.num = n := beq_iff_eq.mp (List.mem_filter.mp hd).2
          have h2 : d'.num = n := beq_iff_eq.mp (List.mem_filter.mp hd').2
          rw [List.map_cons, List.map_cons] at hnd
          apply (List.nodup_cons.mp hnd).1
          rw [h1, ← h2]
          exact List.mem_cons_self _ _

theorem scanLocal_lookup (fs : MangaFS) (hnum : NodupNums fs) (hwf : WfFS fs) (n : String) :
    lookupD (scanLocal fs) n = (chapsAt fs.chaps n).head?.map ChapDir.vol := by
  rw [lookupD_scanLocal]
  rcases chapsAt_cases fs hnum n with hempty | ⟨d, hone, hdn⟩
  · have hno : ∀ x ∈ fs.chaps, x.num ≠ n := by
      intro x hx hxe
      have hmem : x ∈ chapsAt fs.chaps n := List.mem_filter.mpr ⟨hx, beq_iff_eq.mpr hxe⟩
      rw [hempty] at hmem
      cases hmem
    have h1 : (volEntries fs).reverse.find? (fun p => p.1 == n) = none := by
      rw [List.find?_eq_none]
      intro p hp
      obtain ⟨w, _, d', hd', _, rfl⟩ := (mem_volEntries fs p).mp (List.mem_reverse.mp hp)
      simp
      exact hno d' hd'
    have h2 : (rootEntries fs).reverse.find? (fun p => p.1 == n) = none := by
      rw [List.find?_eq_none]
      intro p hp
      obtain ⟨d', hd', _, rfl⟩ := (mem_rootEntries fs p).mp (List.mem_reverse.mp hp)
      simp
      exact hno d' hd'
    rw [h1, h2, hempty]
    rfl
  · have huniqd : ∀ x ∈ fs.chaps, x.num = n → x = d := by
      intro x hx hxe
      have hmem : x ∈ chapsAt fs.chaps n := List.mem_filter.mpr ⟨hx, beq_iff_eq.mpr hxe⟩
      rw [hone] at hmem
      exact List.mem_singleton.mp hmem
    have hdmem : d ∈ fs.chaps := by
      have hmem : d ∈ chapsAt fs.chaps n := by
        rw [hone]
        exact List.mem_singleton.mpr rfl
      exact (List.mem_filter.mp hmem).1
    cases hdv : d.vol with
    | none =>
        have h1 : (volEntries fs).reverse.find? (fun p => p.1 == n) = none := by
          rw [List.find?_eq_none]
          intro p hp
          obtain ⟨w, _, d', hd', hdv', rfl⟩ :=
            (mem_volEntries fs p).mp (List.mem_reverse.mp hp)
          simp
          intro he
          have hde := huniqd d' hd' he
          rw [hde, hdv] at hdv'
          exact Option.noConfusion hdv'
        have hmem : ((n, none) : String × Option String) ∈ (rootEntries fs).reverse := by
          rw [List.mem_reverse]
          exact (mem_rootEntries fs _).mpr ⟨d, hdmem, hdv, by rw [hdn]⟩
        have hsome : ((rootEntries fs).reverse.find? (fun p => p.1 == n)).isSome = true :=
          List.find?_isSome.mpr ⟨_, hmem, by simp⟩
        obtain ⟨q, hq⟩ := Option.isSome_iff_exists.mp hsome
        have hq2 : q.2 = none := by
          obtain ⟨d', _, _, rfl⟩ :=
            (mem_rootEntries fs q).mp (List.mem_reverse.mp (List.mem_of_find?_eq_some hq))
          rfl
        rw [h1, hq, hone]
        simp [hq2, hdv]
    | some v =>
        have hmem : ((n, some v) : String × Option String) ∈ (volEntries fs).reverse := by
          rw [List.mem_reverse]
          exact (mem_volEntries fs _).mpr ⟨v, hwf d hdmem v hdv, d, hdmem, hdv, by rw [hdn]⟩
        have hsome : ((volEntries fs).reverse.find? (fun p => p.1 == n)).isSome = true :=
          List.find?_isSome.mpr ⟨_, hmem, by simp⟩
        obtain ⟨q, hq⟩ := Option.isSome_iff_exists.mp hsome
        have hqn : q.1 = n := by
          have := List.find?_some hq
          simpa using this
        have hq2 : q.2 = some v := by
          obtain ⟨w, _, d', hd', hdv', rfl⟩ :=
            (mem_volEntries fs q).mp (List.mem_reverse.mp (List.mem_of_find?_eq_some hq))
          have hde : d' = d := huniqd d' hd' hqn
          rw [hde, hdv] at hdv'
          obtain rfl : v = w := Option.some.inj hdv'
          rfl
        rw [hq, hone]
        simp [hq2, hdv]

theorem nodupKeys_buildApi_foldl (raw : List (String × Option String))
    (d : List (String × Option String)) (h : NodupKeys d) :
    NodupKeys (raw.foldl (fun d p => dictInsert d p.1 (normalizeVolume p.2)) d) := by
  induction raw generalizing d with
  | nil => exact h
  | cons p t ih => exact ih _ (nodupKeys_dictInsert _ _ _ h)

theorem buildApi_nodupKeys (raw : List (String × Option String)) :
    NodupKeys (buildApi raw) :=
  nodupKeys_buildApi_foldl raw [] (by simp [NodupKeys])

theorem values_dictInsert {P : α → Prop} (d : List (String × α)) (k : String) (v : α)
    (hd : ∀ p ∈ d, P p.2) (hv : P v) : ∀ p ∈ dictInsert d k v, P p.2 := by
  induction d with
  | nil =>
      intro p hp
      rw [dictInsert] at hp
      obtain rfl : p = (k, v) := List.mem_singleton.mp hp
      exact hv
  | cons q t ih =>
      intro p hp
      rw [dictInsert] at hp
      by_cases hqk : q.1 = k
      · rw [if_pos hqk] at hp
        rcases List.mem_cons.mp hp with rfl | hp'
        · exact hv
        · exact hd p (List.mem_cons_of_mem _ hp')
      · rw [if_neg hqk] at hp
        rcases List.mem_cons.mp hp with rfl | hp'
        · exact hd p (List.mem_cons_self _ _)
        · exact ih (fun p' hp' => hd p' (List.mem_cons_of_mem _ hp')) p hp'

theorem buildApi_values_foldl (raw : List (String × Option String))
    (d : List (String × Option String)) (hd : ∀ p ∈ d, truthyVol p.2 = p.2) :
    ∀ p ∈ raw.foldl (fun d p => dictInsert d p.1 (normalizeVolume p.2)) d,
      truthyVol p.2 = p.2 := by
  induction raw generalizing d with
  | nil => exact hd
  | cons q t ih =>
      exact ih _ (@values_dictInsert (Option String) (fun v => truthyVol v = v) d q.1
        (normalizeVolume q.2) hd (truthyVol_normalizeVolume q.2))

theorem buildApi_values (raw : List (String × Option String)) :
    ∀ p ∈ buildApi raw, truthyVol p.2 = p.2 :=
  buildApi_values_foldl raw [] (by intro p hp; cases hp)

theorem computeChanges_num_sublist (api loc : List (String × Option String)) :
    List.Sublist ((computeChanges api loc).map Change.num) (api.map Prod.fst) := by
  induction api with
  | nil => exact List.Sublist.refl _
  | cons p t ih =>
      rw [computeChanges] at ih ⊢
      rw [List.filterMap_cons]
      rcases hl : lookupD loc p.1 with _ | lv
      · simp only [hl]
        exact List.Sublist.cons _ ih
      · simp only [hl]
        by_cases hne : lv ≠ p.2
        · rw [if_pos hne]
          exact List.Sublist.cons₂ _ ih
        · rw [if_neg hne]
          exact List.Sublist.cons _ ih

theorem updateVolumeStructure_def (fs : MangaFS) (remote : List (String × Option String)) :
    updateVolumeStructure fs remote =
      if (scanLocal fs).isEmpty then fs
      else if (computeChanges (buildApi remote) (scanLocal fs)).isEmpty then fs
      else applyChanges allOk fs (computeChanges (buildApi remote) (scanLocal fs)) := rfl

theorem secondRun_changes_nil (fs : MangaFS) (remote : List (String × Option String))
    (hnum : NodupNums fs) (hwf : WfFS fs) :
    computeChanges (buildApi remote) (scanLocal (updateVolumeStructure fs remote)) = [] := by
  have hnk : NodupKeys (buildApi remote) := buildApi_nodupKeys remote
  rw [updateVolumeStructure_def]
  by_cases hloc : (scanLocal fs).isEmpty = true
  · rw [if_pos hloc]
    rw [computeChanges, List.filterMap_eq_nil_iff]
    intro p hp
    have hsl : scanLocal fs = [] := List.isEmpty_iff.mp hloc
    rw [hsl, lookupD_nil]
  · rw [if_neg hloc]
    by_cases hch : (computeChanges (buildApi remote) (scanLocal fs)).isEmpty = true
    · rw [if_pos hch]
      exact List.isEmpty_iff.mp hch
    · rw [if_neg hch]
      set changes := computeChanges (buildApi remote) (scanLocal fs) with hchangesdef
      set fs' := applyChanges allOk fs changes with hfsdef
      have hnum' : NodupNums fs' := nodupNums_applyChanges _ _ _ hnum
      have hwf' : WfFS fs' := wf_applyChanges _ _ _ hwf
      have hchnodup : (changes.map Change.num).Nodup :=
        (computeChanges_num_sublist (buildApi remote) (scanLocal fs)).nodup hnk
      have hmemch : ∀ c ∈ changes,
          lookupD (buildApi remote) c.num = some c.toVol ∧
            lookupD (scanLocal fs) c.num = some c.fromVol ∧ c.fromVol ≠ c.toVol :=
        fun c hc => (mem_computeChanges (buildApi remote) (scanLocal fs) hnk c).mp hc
      have hnorm : ∀ c ∈ changes, truthyVol c.toVol = c.toVol := by
        intro c hc
        have hmem : (c.num, c.toVol) ∈ buildApi remote :=
          (lookupD_eq_some_iff_mem (buildApi remote) hnk _ _).mp (hmemch c hc).1
        exact buildApi_values remote _ hmem
      have hne' : ∀ c ∈ changes, truthyVol c.toVol ≠ c.fromVol := by
        intro c hc
        rw [hnorm c hc]
        exact fun h => (hmemch c hc).2.2 h.symm
      have hvalid : ∀ c ∈ changes, ∃ a, chapsAt fs.chaps c.num = [⟨c.fromVol, c.num, a⟩] := by
        intro c hc
        have h2 := (hmemch c hc).2.1
        rw [scanLocal_lookup fs hnum hwf] at h2
        rcases chapsAt_cases fs hnum c.num with he | ⟨d, hd1, hd2⟩
        · rw [he] at h2
          exact absurd h2 (by simp)
        · rw [hd1] at h2
          simp at h2
          refine ⟨d.content, ?_⟩
          rw [hd1]
          cases d with
          | mk dv dn dc =>
              simp only at h2 hd2
              rw [h2, hd2]
      have hhit := chapsAt_applyChanges_hit changes fs hchnodup hvalid hne'
      rw [computeChanges, List.filterMap_eq_nil_iff]
      intro p hp
      have hlk' := scanLocal_lookup fs' hnum' hwf' p.1
      have hp2 : lookupD (buildApi remote) p.1 = some p.2 :=
        (lookupD_eq_some_iff_mem (buildApi remote) hnk _ _).mpr hp
      rcases hl : lookupD (scanLocal fs) p.1 with _ | lv
      · have hnoc : ∀ c ∈ changes, c.num ≠ p.1 := by
          intro c hc hceq
          have h2 := (hmemch c hc).2.1
          rw [hceq, hl] at h2
          exact Option.noConfusion h2
        have hsame : chapsAt fs'.chaps p.1 = chapsAt fs.chaps p.1 :=
          chapsAt_applyChanges_other allOk changes fs p.1 hnoc
        have hl0 := scanLocal_lookup fs hnum hwf p.1
        rw [hl] at hl0
        have hnone : lookupD (scanLocal fs') p.1 = none := by
          rw [hlk', hsame]
          exact hl0.symm
        rw [hnone]
      · by_cases heq : lv = p.2
        · have hnoc : ∀ c ∈ changes, c.num ≠ p.1 := by
            intro c hc hceq
            obtain ⟨h1, h2, h3⟩ := hmemch c hc
            rw [hceq] at h1 h2
            rw [hl] at h2
            have hfv : c.fromVol = lv := (Option.some.inj h2).symm
            rw [h1] at hp2
            have htv : c.toVol = p.2 := Option.some.inj hp2
            exact h3 (by rw [hfv, htv, heq])
          have hsame : chapsAt fs'.chaps p.1 = chapsAt fs.chaps p.1 :=
            chapsAt_applyChanges_other allOk changes fs p.1 hnoc
          have hl0 := scanLocal_lookup fs hnum hwf p.1
          rw [hl] at hl0
          have hsv : lookupD (scanLocal fs') p.1 = some lv := by
            rw [hlk', hsame]
            exact hl0.symm
          rw [hsv]
          simp [heq]
        · have hc0 : (⟨p.1, lv, p.2⟩ : Change) ∈ changes := by
            rw [hchangesdef]
            exact (mem_computeChanges (buildApi remote) (scanLocal fs) hnk _).mpr
              ⟨hp2, hl, heq⟩
          obtain ⟨a, ha⟩ := hhit _ hc0
          have hn2 : truthyVol p.2 = p.2 := buildApi_values remote p hp
          rw [hn2] at ha
          have hsv : lookupD (scanLocal fs') p.1 = some p.2 := by
            rw [hlk', ha]
            rfl
          rw [hsv]
          simp

/-- C8 (amended): reconciliation is idempotent on well-formed directory
states — provided every chapter number names at most one directory on disk
(no duplicate copies) and every chapter sitting inside `Vol.{v}` has that
volume directory present, a second run against the unchanged remote
assignment computes zero StructureChanges and performs no move: applying the
first run's changes makes the scanned local assignment agree with the remote
one on every shared chapter number. -/
theorem c8_idempotent_reconciliation (fs : MangaFS)
    (remote : List (String × Option String))
    (hnum : NodupNums fs) (hwf : WfFS fs) :
    computeChanges (buildApi remote) (scanLocal (updateVolumeStructure fs remote)) = []
    ∧ updateVolumeStructure (updateVolumeStructure fs remote) remote
        = updateVolumeStructure fs remote := by
  have h1 := secondRun_changes_nil fs remote hnum hwf
  refine ⟨h1, ?_⟩
  rw [updateVolumeStructure_def (updateVolumeStructure fs remote) remote]
  by_cases hloc : (scanLocal (updateVolumeStructure fs remote)).isEmpty = true
  · rw [if_pos hloc]
  · rw [if_neg hloc, if_pos (by rw [h1]; rfl)]

theorem c8_idempotent_reconciliation_witness :
    computeChanges (buildApi [("1", some "2")])
        (scanLocal (updateVolumeStructure fsSimple [("1", some "2")])) = []
    ∧ updateVolumeStructure (updateVolumeStructure fsSimple [("1", some "2")])
        [("1", some "2")] = updateVolumeStructure fsSimple [("1", some "2")] :=
  c8_idempotent_reconciliation fsSimple [("1", some "2")] (by decide) (by decide)

/-- C8 counterexample: on a directory holding the same chapter both as
`Vol.1/Ch.1` and as `Vol.2/Ch.1`, with the remote assigning chapter 1 to
volume 1, the first run's single change (sourced at the scanned `Vol.2`
copy) collides with the existing `Vol.1/Ch.1` and is skipped, so the second
run recomputes the same non-empty change set — reconciliation twice is not
guaranteed to reach zero StructureChanges. -/
theorem c8_counterexample_duplicate_copies :
    computeChanges (buildApi [("1", some "1")])
        (scanLocal (updateVolumeStructure fsDup [("1", some "1")]))
      = [⟨"1", some "2", some "1"⟩]
    ∧ computeChanges (buildApi [("1", some "1")])
        (scanLocal (updateVolumeStructure fsDup [("1", some "1")])) ≠ [] :=
  ⟨rfl, by decide⟩
